import Mathlib

/-!
Verification of runebender's outline-to-path conversion
(`src/widgets/glyph.rs`, function `path_for_glyph`) and of its two path
serializers (`src/copy_as_code.rs`, functions `make_code_string` and
`make_glyphs_plist`).

The converter is embedded as a total function returning `Option`:
`none` models the `panic!` arm of the `add_curve` closure and the
`debug_assert!` failure branches of `add_contour` (a `Line` point with a
non-empty pending-control buffer, and a `Move` point after the first
point).  Point coordinates are carried through the converter unchanged,
so they are modelled as integers; the drawing-code serializer, which
does arithmetic on coordinates (a vertical flip and a translation), is
modelled over the rationals.
-/

/-- The `norad::glyph::PointType` enum. -/
inductive PointType where
  | move
  | line
  | offCurve
  | curve
  | qcurve
deriving DecidableEq, Repr

/-- A `norad::glyph::ContourPoint`: a coordinate pair and a point type. -/
structure ContourPoint where
  x : Int
  y : Int
  typ : PointType
deriving DecidableEq, Repr

/-- A `norad::glyph::Contour`: an ordered list of points. -/
structure Contour where
  points : List ContourPoint
deriving DecidableEq, Repr

/-- A `norad::glyph::Outline`: an ordered list of contours. -/
structure Outline where
  contours : List Contour
deriving DecidableEq, Repr

/-- The parts of a `norad::glyph::Glyph` the converter reads. -/
structure Glyph where
  name : String
  outline : Option Outline
deriving DecidableEq, Repr

/-- A `kurbo::PathEl` drawing primitive, parameterised by the coordinate
type (the source uses `f64` throughout). -/
inductive PathEl (α : Type) where
  | moveTo (p : α × α)
  | lineTo (p : α × α)
  | quadTo (p1 p2 : α × α)
  | curveTo (p1 p2 p3 : α × α)
  | closePath
deriving DecidableEq, Repr

/-- The coordinate pair of a contour point, as pushed into the path
(`(next.x as f64, next.y as f64)` in the source). -/
def ContourPoint.pt (p : ContourPoint) : Int × Int := (p.x, p.y)

/-- The `add_curve` closure of `add_contour`: emit a segment chosen by the
pending-control buffer (0 controls → line, 1 → quad, 2 → cubic) and clear
the buffer.  The `_illegal => panic!` arm is modelled as `none`. -/
def addCurve (controls : List (Int × Int)) (tp : Int × Int) :
    Option (PathEl Int × List (Int × Int)) :=
  match controls with
  | [] => some (.lineTo tp, [])
  | [a] => some (.quadTo a tp, [])
  | [a, b] => some (.curveTo a b tp, [])
  | _ => none

/-- The `while idx < contour.points.len()` loop of `add_contour`: walk the
points after the first, carrying the emitted elements and the
pending-control buffer.  A `Line` point with a non-empty buffer models the
`debug_assert!(controls.is_empty())` failure, and a `Move` point models the
`debug_assert!(false, "illegal move point in path?")` failure; both are
`none`. -/
def walk : List ContourPoint → List (PathEl Int) → List (Int × Int) →
    Option (List (PathEl Int) × List (Int × Int))
  | [], els, controls => some (els, controls)
  | next :: rest, els, controls =>
    match next.typ with
    | .offCurve => walk rest els (controls ++ [next.pt])
    | .line =>
      if controls.isEmpty then
        match addCurve controls next.pt with
        | some (el, c) => walk rest (els ++ [el]) c
        | none => none
      else none
    | .curve =>
      match addCurve controls next.pt with
      | some (el, c) => walk rest (els ++ [el]) c
      | none => none
    | .qcurve =>
      match addCurve controls next.pt with
      | some (el, c) => walk rest (els ++ [el]) c
      | none => none
    | .move => none

/-- The `add_contour` helper of `path_for_glyph`: an empty contour
contributes nothing; otherwise emit a `MoveTo` at the first point, record
the first point as the closing point when its type is not `Move`, walk the
remaining points, and finally emit one closing segment back to the
recorded point through `add_curve`. -/
def addContour (c : Contour) : Option (List (PathEl Int)) :=
  match c.points with
  | [] => some []
  | first :: rest =>
    let close : Option ContourPoint :=
      if first.typ ≠ .move then some first else none
    match walk rest [.moveTo first.pt] [] with
    | none => none
    | some (els, controls) =>
      match close with
      | none => some els
      | some tc =>
        match addCurve controls tc.pt with
        | some (el, _) => some (els ++ [el])
        | none => none

/-- `path_for_glyph`: each contour of the outline is compiled independently
and the results are concatenated; a glyph without an outline yields the
empty path. -/
def pathForGlyph (g : Glyph) : Option (List (PathEl Int)) :=
  match g.outline with
  | none => some []
  | some o => o.contours.foldlM (fun acc c => (addContour c).map (acc ++ ·)) []

/-- The endpoint of a drawing primitive (the point the pen ends at), when
it has one. -/
def elEndpoint {α : Type} : PathEl α → Option (α × α)
  | .moveTo p => some p
  | .lineTo p => some p
  | .quadTo _ p => some p
  | .curveTo _ _ p => some p
  | .closePath => none

theorem addCurve_some_spec (controls : List (Int × Int)) (tp : Int × Int)
    (el : PathEl Int) (c : List (Int × Int))
    (h : addCurve controls tp = some (el, c)) :
    el ≠ .closePath ∧ c = [] ∧ elEndpoint el = some tp := by
  rcases controls with _ | ⟨a, _ | ⟨b, _ | ⟨d, ds⟩⟩⟩ <;>
    simp [addCurve] at h <;>
    obtain ⟨h1, h2⟩ := h <;> subst h1 <;> subst h2 <;> simp [elEndpoint]

theorem addCurve_isSome (controls : List (Int × Int)) (tp : Int × Int)
    (h : controls.length ≤ 2) : ∃ el, addCurve controls tp = some (el, []) := by
  rcases controls with _ | ⟨a, _ | ⟨b, _ | ⟨d, ds⟩⟩⟩
  · exact ⟨.lineTo tp, rfl⟩
  · exact ⟨.quadTo a tp, rfl⟩
  · exact ⟨.curveTo a b tp, rfl⟩
  · simp at h

theorem walk_no_close (pts : List ContourPoint) :
    ∀ (els : List (PathEl Int)) (controls : List (Int × Int)) els' controls',
      walk pts els controls = some (els', controls') →
      PathEl.closePath ∉ els → PathEl.closePath ∉ els' := by
  induction pts with
  | nil =>
    intro els controls els' controls' h hnc
    simp [walk] at h
    obtain ⟨h1, _⟩ := h
    subst h1
    exact hnc
  | cons p rest ih =>
    intro els controls els' controls' h hnc
    cases hp : p.typ
    case move => simp [walk, hp] at h
    case offCurve =>
      simp only [walk, hp] at h
      exact ih _ _ _ _ h hnc
    case line =>
      rcases controls with _ | ⟨a, as⟩
      · simp only [walk, hp, List.isEmpty_nil, if_true, addCurve] at h
        refine ih _ _ _ _ h ?_
        simp [hnc]
      · simp [walk, hp] at h
    case curve =>
      simp only [walk, hp] at h
      rcases hac : addCurve (controls) p.pt with _ | ⟨el, c⟩
      · rw [hac] at h; simp at h
      · rw [hac] at h
        refine ih _ _ _ _ h ?_
        have := addCurve_some_spec _ _ _ _ hac
        intro hmem
        rcases List.mem_append.mp hmem with h1 | h2
        · exact hnc h1
        · exact this.1 (List.mem_singleton.mp h2).symm
    case qcurve =>
      simp only [walk, hp] at h
      rcases hac : addCurve (controls) p.pt with _ | ⟨el, c⟩
      · rw [hac] at h; simp at h
      · rw [hac] at h
        refine ih _ _ _ _ h ?_
        have := addCurve_some_spec _ _ _ _ hac
        intro hmem
        rcases List.mem_append.mp hmem with h1 | h2
        · exact hnc h1
        · exact this.1 (List.mem_singleton.mp h2).symm

/-- Claim C1 (corrected): a closed 4-point all-`Line` square contour yields
`MoveTo`, three `LineTo`, and a closing `LineTo` back to the start, but no
`ClosePath` primitive — the output claimed by C1 (with a trailing
`ClosePath`) is not produced. -/
theorem closed_contour_closepath_counterexample :
    addContour ⟨[⟨0, 0, .line⟩, ⟨10, 0, .line⟩, ⟨10, 10, .line⟩, ⟨0, 10, .line⟩]⟩ ≠
      some [.moveTo (0, 0), .lineTo (10, 0), .lineTo (10, 10), .lineTo (0, 10),
        .lineTo (0, 0), .closePath] := by
  decide

/-- Claim C1 (amended): for every contour whose first point's type is not
`Move`, the converter's output ends with one final segment — produced by
the 0/1/2 pending-control rule of `add_curve` — whose endpoint equals the
first point's coordinates, and no `ClosePath` primitive appears in the
output. -/
theorem closed_contour_final_segment (c : Contour) (first : ContourPoint)
    (h1 : c.points.head? = some first) (h2 : first.typ ≠ .move)
    (out : List (PathEl Int)) (h3 : addContour c = some out) :
    PathEl.closePath ∉ out ∧
    ∃ controls el, addCurve controls first.pt = some (el, []) ∧
      out.getLast? = some el ∧ elEndpoint el = some first.pt := by
  obtain ⟨pts⟩ := c
  rcases pts with _ | ⟨f, rest⟩
  · simp at h1
  · simp at h1
    replace h1 := h1.symm
    subst h1
    simp only [addContour, if_pos h2] at h3
    rcases hw : walk rest [.moveTo first.pt] [] with _ | ⟨els, controls⟩
    · rw [hw] at h3; simp at h3
    · rw [hw] at h3
      dsimp only at h3
      rcases hac : addCurve controls first.pt with _ | ⟨el, c'⟩
      · rw [hac] at h3; simp at h3
      · rw [hac] at h3
        simp at h3
        subst h3
        obtain ⟨hne, hc', hend⟩ := addCurve_some_spec _ _ _ _ hac
        subst hc'
        refine ⟨?_, controls, el, hac, ?_, hend⟩
        · have hels : PathEl.closePath ∉ els :=
            walk_no_close rest _ _ _ _ hw (by simp)
          simp [hels, Ne.symm hne]
        · simp

/-- Witness for the amended C1 at the closed all-`Line` square contour. -/
theorem closed_contour_final_segment_witness :
    PathEl.closePath ∉ ([.moveTo (0, 0), .lineTo (10, 0), .lineTo (10, 10),
        .lineTo (0, 10), .lineTo (0, 0)] : List (PathEl Int)) ∧
    ∃ controls el, addCurve controls ((0 : Int), (0 : Int)) = some (el, []) ∧
      ([.moveTo (0, 0), .lineTo (10, 0), .lineTo (10, 10), .lineTo (0, 10),
        .lineTo (0, 0)] : List (PathEl Int)).getLast? = some el ∧
      elEndpoint el = some ((0 : Int), (0 : Int)) :=
  closed_contour_final_segment
    ⟨[⟨0, 0, .line⟩, ⟨10, 0, .line⟩, ⟨10, 10, .line⟩, ⟨0, 10, .line⟩]⟩
    ⟨0, 0, .line⟩ rfl (by decide) _ (by decide)

/-- Claim C3: at a `Curve` or `QCurve` point, the emitted segment is chosen
solely by the number of pending control points — 0 controls produce a
`LineTo`, 1 control a `QuadTo(control, end)`, 2 controls a
`CurveTo(control1, control2, end)` — and the walk continues with an empty
pending-control buffer. -/
theorem curve_point_pending_control_rule (next : ContourPoint)
    (rest : List ContourPoint) (els : List (PathEl Int))
    (controls : List (Int × Int))
    (h : next.typ = .curve ∨ next.typ = .qcurve) :
    (controls = [] →
      walk (next :: rest) els controls =
        walk rest (els ++ [.lineTo next.pt]) []) ∧
    (∀ a, controls = [a] →
      walk (next :: rest) els controls =
        walk rest (els ++ [.quadTo a next.pt]) []) ∧
    (∀ a b, controls = [a, b] →
      walk (next :: rest) els controls =
        walk rest (els ++ [.curveTo a b next.pt]) []) := by
  rcases h with h | h <;>
    refine ⟨fun hc => ?_, fun a hc => ?_, fun a b hc => ?_⟩ <;>
      subst hc <;> simp [walk, h, addCurve]

/-- Witness for C3 at a concrete `Curve` point with one pending control. -/
theorem curve_point_pending_control_rule_witness :
    walk [⟨5, 6, .curve⟩] [] [(1, 2)] = some ([.quadTo (1, 2) (5, 6)], []) :=
  (((curve_point_pending_control_rule ⟨5, 6, .curve⟩ [] [] [(1, 2)]
    (Or.inl rfl)).2.1 (1, 2) rfl).trans rfl)

/-- Claim C7 counterexample: a contour consisting of exactly one
`Line`-typed point does not emit only a `MoveTo` — the first point is
recorded as the closing point, so a degenerate closing `LineTo` back to the
same coordinates follows. -/
theorem single_point_contour_counterexample :
    addContour ⟨[⟨3, 4, .line⟩]⟩ ≠ some [.moveTo (3, 4)] := by
  decide

/-- Claim C7 (amended): a contour of exactly one `Move`-typed point emits
only a `MoveTo`; a contour of exactly one point of any other type emits the
`MoveTo` followed by a degenerate closing `LineTo` at the same
coordinates.  Neither case is an error. -/
theorem single_point_contour (p : ContourPoint) :
    addContour ⟨[p]⟩ =
      some (if p.typ = .move then [.moveTo p.pt]
        else [.moveTo p.pt, .lineTo p.pt]) := by
  rcases p with ⟨x, y, t⟩
  cases t <;> rfl

/-- Canonicalisation used to state C9: retype a `QCurve` point as `Curve`,
keeping its coordinates. -/
def canonPoint (p : ContourPoint) : ContourPoint :=
  if p.typ = .qcurve then ⟨p.x, p.y, .curve⟩ else p

theorem walk_canon (pts : List ContourPoint) :
    ∀ (els : List (PathEl Int)) (controls : List (Int × Int)),
      walk (pts.map canonPoint) els controls = walk pts els controls := by
  induction pts with
  | nil => intro els controls; rfl
  | cons p rest ih =>
    intro els controls
    rcases p with ⟨x, y, t⟩
    cases t
    case move => rfl
    case offCurve => simpa [walk, canonPoint, ContourPoint.pt] using ih _ _
    case line =>
      rcases controls with _ | ⟨a, as⟩
      · simpa [walk, canonPoint, ContourPoint.pt, addCurve] using ih _ _
      · simp [walk, canonPoint, ContourPoint.pt]
    case curve =>
      rcases hac : addCurve controls (x, y) with _ | ⟨el, c⟩ <;>
        simp [walk, canonPoint, ContourPoint.pt, hac, ih]
    case qcurve =>
      rcases hac : addCurve controls (x, y) with _ | ⟨el, c⟩ <;>
        simp [walk, canonPoint, ContourPoint.pt, hac, ih]

theorem addContour_canon (l : List ContourPoint) :
    addContour ⟨l.map canonPoint⟩ = addContour ⟨l⟩ := by
  rcases l with _ | ⟨first, rest⟩
  · rfl
  · rcases first with ⟨x, y, t⟩
    cases t <;>
      simp [addContour, canonPoint, walk_canon, ContourPoint.pt]

/-- Claim C9: replacing any `QCurve`-typed point of a contour by a
`Curve`-typed point at the same coordinates yields exactly the same output
curve structure. -/
theorem qcurve_treated_as_curve (c : Contour) (i : Nat) (p : ContourPoint)
    (hget : c.points.get? i = some p) (hq : p.typ = .qcurve) :
    addContour ⟨c.points.set i ⟨p.x, p.y, .curve⟩⟩ = addContour c := by
  have h1 : canonPoint ⟨p.x, p.y, .curve⟩ = canonPoint p := by
    rcases p with ⟨x, y, t⟩
    cases hq
    rfl
  have hmap : ∀ (l : List ContourPoint) (j : Nat) (q r : ContourPoint),
      l.get? j = some q → canonPoint r = canonPoint q →
      (l.set j r).map canonPoint = l.map canonPoint := by
    intro l
    induction l with
    | nil => intro j q r h _; simp [List.get?] at h
    | cons a as ih =>
      intro j q r h hf
      cases j with
      | zero =>
        simp [List.get?] at h
        subst h
        simp [List.set, hf]
      | succ k =>
        simp only [List.get?] at h
        simp only [List.set, List.map_cons, List.cons.injEq, true_and]
        exact ih k q r h hf
  calc addContour ⟨c.points.set i ⟨p.x, p.y, .curve⟩⟩
      = addContour ⟨(c.points.set i ⟨p.x, p.y, .curve⟩).map canonPoint⟩ :=
        (addContour_canon _).symm
    _ = addContour ⟨c.points.map canonPoint⟩ := by
        rw [hmap c.points i p _ hget h1]
    _ = addContour c := addContour_canon _

/-- Witness for C9: retyping the `QCurve` point of a concrete two-point
contour as `Curve` leaves the output unchanged. -/
theorem qcurve_treated_as_curve_witness :
    addContour ⟨([⟨0, 0, .line⟩, ⟨1, 1, .qcurve⟩] :
        List ContourPoint).set 1 ⟨1, 1, .curve⟩⟩ =
      addContour ⟨[⟨0, 0, .line⟩, ⟨1, 1, .qcurve⟩]⟩ :=
  qcurve_treated_as_curve ⟨[⟨0, 0, .line⟩, ⟨1, 1, .qcurve⟩]⟩ 1
    ⟨1, 1, .qcurve⟩ rfl rfl

/-- The `crate::path::PointType` enum as matched in `copy_as_code.rs`
(`OnCurve`, `OnCurveSmooth`, `OffCurve`). -/
inductive EPointType where
  | onCurve
  | onCurveSmooth
  | offCurve
deriving DecidableEq, Repr

/-- Modelled from the spec: a point of `crate::path::Path` (the editable
path type lives outside `src/`); §6 of the spec says a path exposes
`points() -> ordered sequence of coordinate-and-type records`.  The
coordinates are editing-space coordinates, modelled as integers (the
serializer only prints them with the plain display format, on which
integers agree with integral floats). -/
structure EPoint where
  x : Int
  y : Int
  typ : EPointType
deriving DecidableEq, Repr

/-- Modelled from the spec: `crate::path::Path` (not under `src/`); §6 of
the spec says it exposes `points()` and `is_closed()`, and
`make_code_string` additionally calls `bezier()`, whose construction is
also outside `src/`, so the built bezier is carried as a component. -/
structure EPath where
  points : List EPoint
  closed : Bool
  bez : List (PathEl ℚ)
deriving DecidableEq

/-- Modelled from the spec: the edit-session collaborator of §6, exposing
an ordered collection of editable paths and a name. -/
structure EditSession where
  paths : List EPath
  name : String
deriving DecidableEq

/-- The `GlyphPlistPath` record of `copy_as_code.rs`: a 0/1 closed flag
and the node strings. -/
structure GlyphPlistPath where
  closed : Nat
  nodes : List String
deriving DecidableEq, Repr

/-- The `GlyphsPastePlist` record of `copy_as_code.rs`. -/
structure GlyphsPastePlist where
  glyph : String
  layer : String
  paths : List GlyphPlistPath
deriving DecidableEq

/-- The node-type tag chosen in `From<&Path> for GlyphPlistPath`: an
on-curve point is `CURVE` when `next_is_curve` is set (the previous point
was off-curve) and `LINE` otherwise; a smooth on-curve point is always
`CURVE SMOOTH`; an off-curve point is `OFFCURVE`. -/
def ptypLabel (nextIsCurve : Bool) : EPointType → String
  | .onCurve => if nextIsCurve then "CURVE" else "LINE"
  | .onCurveSmooth => "CURVE SMOOTH"
  | .offCurve => "OFFCURVE"

/-- One node string of the interchange record:
`format!("\"{} {} {}\"", p.point.x, p.point.y, ptyp)` — note the literal
double-quote characters around the three fields. -/
def nodeStr (nextIsCurve : Bool) (p : EPoint) : String :=
  "\"" ++ toString p.x ++ " " ++ toString p.y ++ " " ++
    ptypLabel nextIsCurve p.typ ++ "\""

/-- The stateful map over the path's points: each point is rendered with
the current `next_is_curve` flag, which is then reset to whether this
point is off-curve. -/
def nodesAux (nic : Bool) : List EPoint → List String
  | [] => []
  | p :: rest => nodeStr nic p :: nodesAux (p.typ == .offCurve) rest

/-- `From<&Path> for GlyphPlistPath`: `next_is_curve` starts as "the last
point is off-curve" (wraparound; `false` for an empty path), the nodes are
the stateful map over the points, and `closed` is 1 for a closed path and
0 otherwise. -/
def GlyphPlistPath.ofPath (src : EPath) : GlyphPlistPath :=
  let nic := (src.points.getLast?.map (fun p => p.typ == EPointType.offCurve)).getD false
  { closed := if src.closed then 1 else 0
    nodes := nodesAux nic src.points }

/-- `make_glyphs_plist`: `None` when the session has no paths; otherwise
the structured plist record.  The external binary-plist writer
(`plist::to_writer_binary`) is modelled as the structured value itself;
per the spec its only failure is a serialization I/O error. -/
def makeGlyphsPlist (s : EditSession) : Option GlyphsPastePlist :=
  let paths := s.paths.map GlyphPlistPath.ofPath
  if paths.isEmpty then none
  else some { glyph := s.name, layer := "", paths := paths }

/-- One-decimal formatting of a coordinate, modelling Rust's `{:.1}`
display of an `f64` (tie rounding is modelled as round-half-up; no claim
depends on the tie case). -/
def fmt1 (q : ℚ) : String :=
  let n : Int := round (|q| * 10)
  (if q < 0 then "-" else "") ++ toString (n / 10) ++ "." ++ toString (n % 10)

/-- One emitted statement of `append_path`. -/
def pathElCode : PathEl ℚ → String
  | .moveTo p => "bez.move_to((" ++ fmt1 p.1 ++ ", " ++ fmt1 p.2 ++ "));\n"
  | .lineTo p => "bez.line_to((" ++ fmt1 p.1 ++ ", " ++ fmt1 p.2 ++ "));\n"
  | .quadTo p1 p2 =>
    "bez.quad_to((" ++ fmt1 p1.1 ++ ", " ++ fmt1 p1.2 ++ "), (" ++
      fmt1 p2.1 ++ ", " ++ fmt1 p2.2 ++ "));\n"
  | .curveTo p1 p2 p3 =>
    "bez.curve_to((" ++ fmt1 p1.1 ++ ", " ++ fmt1 p1.2 ++ "), (" ++
      fmt1 p2.1 ++ ", " ++ fmt1 p2.2 ++ "), (" ++
      fmt1 p3.1 ++ ", " ++ fmt1 p3.2 ++ "));\n"
  | .closePath => "bez.close_path();\n"

/-- `append_path`: a blank line, then one statement per element, appended
to the accumulating buffer.  Writing into a `String` cannot fail, so the
`std::fmt::Result` is always `Ok` and the function is total. -/
def appendPath (b : List (PathEl ℚ)) (out : String) : String :=
  b.foldl (fun acc el => acc ++ pathElCode el) (out ++ "\n")

/-- The points of a drawing primitive, in order (control points and
endpoint). -/
def elPoints : PathEl ℚ → List (ℚ × ℚ)
  | .moveTo p => [p]
  | .lineTo p => [p]
  | .quadTo p1 p2 => [p1, p2]
  | .curveTo p1 p2 p3 => [p1, p2, p3]
  | .closePath => []

/-- All points of a path's elements. -/
def pathPoints (b : List (PathEl ℚ)) : List (ℚ × ℚ) :=
  b.flatMap elPoints

/-- Applying a point map to one drawing primitive
(`kurbo::BezPath::apply_affine` maps every point of every element). -/
def mapEl (f : ℚ × ℚ → ℚ × ℚ) : PathEl ℚ → PathEl ℚ
  | .moveTo p => .moveTo (f p)
  | .lineTo p => .lineTo (f p)
  | .quadTo p1 p2 => .quadTo (f p1) (f p2)
  | .curveTo p1 p2 p3 => .curveTo (f p1) (f p2) (f p3)
  | .closePath => .closePath

/-- `BezPath::apply_affine`, for the two affine maps the serializer uses. -/
def applyAffine (f : ℚ × ℚ → ℚ × ℚ) (b : List (PathEl ℚ)) : List (PathEl ℚ) :=
  b.map (mapEl f)

/-- `Affine::FLIP_Y`: negate the vertical coordinate. -/
def flipY (p : ℚ × ℚ) : ℚ × ℚ := (p.1, -p.2)

/-- `Affine::translate(v)`: shift every point by `v`. -/
def translateBy (v : ℚ × ℚ) (p : ℚ × ℚ) : ℚ × ℚ := (p.1 + v.1, p.2 + v.2)

/-- An axis-aligned rectangle (`kurbo::Rect`); `(x0, y0)` is the origin
(minimum corner). -/
structure RectQ where
  x0 : ℚ
  y0 : ℚ
  x1 : ℚ
  y1 : ℚ
deriving DecidableEq

/-- The axis-aligned hull of a point list; the empty list gives
`Rect::ZERO` as in kurbo. -/
def rectOfPoints : List (ℚ × ℚ) → RectQ
  | [] => ⟨0, 0, 0, 0⟩
  | q :: qs =>
    ⟨qs.foldl (fun a r => min a r.1) q.1, qs.foldl (fun a r => min a r.2) q.2,
      qs.foldl (fun a r => max a r.1) q.1, qs.foldl (fun a r => max a r.2) q.2⟩

/-- `kurbo::Shape::bounding_box` for a path, modelled as the axis-aligned
hull of the elements' points (kurbo computes the exact curve bounding box,
which may be tighter inside the control hull; both are equivariant under
translation, which is all the origin property uses). -/
def boundingBox (b : List (PathEl ℚ)) : RectQ :=
  rectOfPoints (pathPoints b)

/-- The two transforms `make_code_string` applies to one path's bezier
before emission: the vertical flip, then the translation taking the
flipped path's bounding-box origin to `(0, 0)`. -/
def transformForCode (b : List (PathEl ℚ)) : List (PathEl ℚ) :=
  let b1 := applyAffine flipY b
  let bbox := boundingBox b1
  applyAffine (translateBy (-bbox.x0, -bbox.y0)) b1

/-- `make_code_string`: `None` when the session has no paths; otherwise
the concatenation, over all paths, of the drawing statements for the
flipped and re-origined bezier of each path, after the preamble line. -/
def makeCodeString (s : EditSession) : Option String :=
  if s.paths.isEmpty then none
  else some (s.paths.foldl
    (fun out p => appendPath (transformForCode p.bez) out)
    "let mut bez = BezPath::new();\n")

/-- The node-type rule exactly as the claim words it: an on-curve point is
labeled `CURVE` when the previous point has type `OffCurve` and `LINE`
otherwise; a smooth on-curve point is always `CURVE SMOOTH`; an off-curve
point is `OFFCURVE`. -/
def claimLabel (prevIsOffCurve : Bool) : EPointType → String
  | .onCurve => if prevIsOffCurve then "CURVE" else "LINE"
  | .onCurveSmooth => "CURVE SMOOTH"
  | .offCurve => "OFFCURVE"

/-- Whether the predecessor of position `i` is off-curve, wrapping around:
the predecessor of the first point is the last point. -/
def prevIsOff (pts : List EPoint) : Nat → Bool
  | 0 => (pts.getLast?.map (fun p => p.typ == EPointType.offCurve)).getD false
  | j + 1 => ((pts.get? j).map (fun p => p.typ == EPointType.offCurve)).getD false

theorem claimLabel_eq_ptypLabel (b : Bool) (t : EPointType) :
    claimLabel b t = ptypLabel b t := by
  cases t <;> rfl

theorem nodesAux_get? (pts : List EPoint) :
    ∀ (nic : Bool) (i : Nat),
      (nodesAux nic pts).get? i =
        (pts.get? i).map (nodeStr (if i = 0 then nic else
          ((pts.get? (i - 1)).map (fun p => p.typ == EPointType.offCurve)).getD false)) := by
  induction pts with
  | nil => intro nic i; simp [nodesAux]
  | cons p rest ih =>
    intro nic i
    cases i with
    | zero => simp [nodesAux, List.get?]
    | succ j =>
      simp only [nodesAux, List.get?]
      rw [ih (p.typ == EPointType.offCurve) j]
      cases j with
      | zero => simp [List.get?]
      | succ k => simp [List.get?]

/-- The node string at position `i`, characterised against the wraparound
predecessor rule (shared helper). -/
theorem ofPath_node_at (src : EPath) (i : Nat) (p : EPoint)
    (h : src.points.get? i = some p) :
    (GlyphPlistPath.ofPath src).nodes.get? i =
      some ("\"" ++ toString p.x ++ " " ++ toString p.y ++ " " ++
        claimLabel (prevIsOff src.points i) p.typ ++ "\"") := by
  show (nodesAux _ src.points).get? i = _
  rw [nodesAux_get? src.points _ i, h]
  cases i with
  | zero => simp [nodeStr, claimLabel_eq_ptypLabel, prevIsOff]
  | succ j => simp [nodeStr, claimLabel_eq_ptypLabel, prevIsOff]

/-- Claim C2: the serializer's node string at position `i` carries exactly
the label of the claim's rule — `CURVE` for an on-curve point whose
predecessor (wrapping from the end to the start for the first point) is
off-curve, `LINE` for other on-curve points, always `CURVE SMOOTH` for
smooth on-curve points, `OFFCURVE` for off-curve points. -/
theorem interchange_label_rule (src : EPath) (i : Nat) (p : EPoint)
    (h : src.points.get? i = some p) :
    (GlyphPlistPath.ofPath src).nodes.get? i =
      some ("\"" ++ toString p.x ++ " " ++ toString p.y ++ " " ++
        claimLabel (prevIsOff src.points i) p.typ ++ "\"") :=
  ofPath_node_at src i p h

/-- Witness for C2 at the contour points typed
`[OffCurve, OffCurve, OnCurve]`: the on-curve point is labeled `CURVE`. -/
theorem interchange_label_rule_witness :
    (GlyphPlistPath.ofPath
      ⟨[⟨1, 2, .offCurve⟩, ⟨3, 4, .offCurve⟩, ⟨5, 6, .onCurve⟩], true, []⟩).nodes.get? 2 =
      some "\"5 6 CURVE\"" :=
  (interchange_label_rule
    ⟨[⟨1, 2, .offCurve⟩, ⟨3, 4, .offCurve⟩, ⟨5, 6, .onCurve⟩], true, []⟩ 2
    ⟨5, 6, .onCurve⟩ rfl).trans (by decide)

/-- The `next_is_curve` flags paired with each point by the stateful map,
used to state that the nodes are exactly one per point in order. -/
def nicFlags (nic : Bool) : List EPoint → List Bool
  | [] => []
  | p :: rest => nic :: nicFlags (p.typ == .offCurve) rest

theorem nicFlags_length (pts : List EPoint) :
    ∀ nic, (nicFlags nic pts).length = pts.length := by
  induction pts with
  | nil => intro nic; rfl
  | cons p rest ih => intro nic; simp [nicFlags, ih]

theorem nodesAux_eq_zipWith (pts : List EPoint) :
    ∀ nic, nodesAux nic pts =
      List.zipWith nodeStr (nicFlags nic pts) pts := by
  induction pts with
  | nil => intro nic; rfl
  | cons p rest ih => intro nic; simp [nodesAux, nicFlags, ih]

/-- Claim C10: the interchange record has exactly one node per point of
the path, in the same order (each node is rendered from the matching
point, paired with a flag list of the same length); a path with zero
points yields the record with its closed flag and an empty nodes list. -/
theorem interchange_one_node_per_point (src : EPath) :
    (GlyphPlistPath.ofPath src).nodes.length = src.points.length ∧
    (∃ flags : List Bool, flags.length = src.points.length ∧
      (GlyphPlistPath.ofPath src).nodes =
        List.zipWith nodeStr flags src.points) ∧
    GlyphPlistPath.ofPath ⟨[], src.closed, src.bez⟩ =
      ⟨if src.closed then 1 else 0, []⟩ := by
  refine ⟨?_, ⟨nicFlags ((src.points.getLast?.map
      (fun p => p.typ == EPointType.offCurve)).getD false) src.points,
    nicFlags_length _ _, ?_⟩, rfl⟩
  · show (nodesAux _ src.points).length = _
    rw [nodesAux_eq_zipWith]
    rw [List.length_zipWith, nicFlags_length]
    simp
  · show nodesAux _ src.points = _
    exact nodesAux_eq_zipWith _ _

/-- The square editable path of the spec's interchange scenario: a closed
all-on-curve 10×10 square. -/
def squareEditPath : EPath :=
  ⟨[⟨0, 0, .onCurve⟩, ⟨10, 0, .onCurve⟩, ⟨10, 10, .onCurve⟩,
    ⟨0, 10, .onCurve⟩], true, []⟩

/-- Claim C4 counterexample: the node strings carry literal double-quote
characters (from `format!("\"{} {} {}\"", ..)`), so the square's record is
not `closed: 1, nodes = ["0 0 LINE", ...]` as the claim states. -/
theorem interchange_node_format_counterexample :
    GlyphPlistPath.ofPath squareEditPath ≠
      ⟨1, ["0 0 LINE", "10 0 LINE", "10 10 LINE", "0 10 LINE"]⟩ := by
  decide

/-- Claim C4 (amended): each node string is the three fields `x y TYPE`
wrapped in literal double-quote characters, with the original editing-space
coordinates; the record's closed field is 1 for a closed path and 0
otherwise; the closed all-`Line` square yields `closed: 1` and the four
quoted node strings. -/
theorem interchange_node_format (src : EPath) :
    (GlyphPlistPath.ofPath src).closed = (if src.closed then 1 else 0) ∧
    (∀ (i : Nat) (p : EPoint), src.points.get? i = some p →
      ∃ lbl, (GlyphPlistPath.ofPath src).nodes.get? i =
        some ("\"" ++ toString p.x ++ " " ++ toString p.y ++ " " ++
          lbl ++ "\"")) ∧
    GlyphPlistPath.ofPath squareEditPath =
      ⟨1, ["\"0 0 LINE\"", "\"10 0 LINE\"", "\"10 10 LINE\"",
        "\"0 10 LINE\""]⟩ := by
  refine ⟨rfl, fun i p h => ?_, by decide⟩
  exact ⟨claimLabel (prevIsOff src.points i) p.typ,
    ofPath_node_at src i p h⟩

/-- Witness for the amended C4 at the square path's first point. -/
theorem interchange_node_format_witness :
    ∃ lbl, (GlyphPlistPath.ofPath squareEditPath).nodes.get? 0 =
      some ("\"" ++ toString (0 : Int) ++ " " ++ toString (0 : Int) ++ " " ++
        lbl ++ "\"") :=
  (interchange_node_format squareEditPath).2.1 0 ⟨0, 0, .onCurve⟩ rfl

/-- Claim C6: with zero paths both serializers return `None`
(deterministically — they are pure functions); with at least one path
neither returns `None`, since in-memory formatting cannot fail and the
plist value is always produced. -/
theorem serializers_none_iff_no_paths (s : EditSession) :
    (s.paths = [] → makeCodeString s = none ∧ makeGlyphsPlist s = none) ∧
    (s.paths ≠ [] →
      (makeCodeString s).isSome = true ∧ (makeGlyphsPlist s).isSome = true) := by
  obtain ⟨paths, name⟩ := s
  constructor
  · rintro rfl
    exact ⟨rfl, rfl⟩
  · intro h
    rcases paths with _ | ⟨p, ps⟩
    · exact absurd rfl h
    · exact ⟨rfl, rfl⟩

/-- Witness for C6: an empty session yields `None` twice; a one-path
session yields a result from both serializers. -/
theorem serializers_none_iff_no_paths_witness :
    (makeCodeString ⟨[], "glyph"⟩ = none ∧ makeGlyphsPlist ⟨[], "glyph"⟩ = none) ∧
    ((makeCodeString ⟨[squareEditPath], "glyph"⟩).isSome = true ∧
      (makeGlyphsPlist ⟨[squareEditPath], "glyph"⟩).isSome = true) :=
  ⟨(serializers_none_iff_no_paths ⟨[], "glyph"⟩).1 rfl,
    (serializers_none_iff_no_paths ⟨[squareEditPath], "glyph"⟩).2
      (List.cons_ne_nil _ _)⟩

theorem elPoints_mapEl (f : ℚ × ℚ → ℚ × ℚ) (el : PathEl ℚ) :
    elPoints (mapEl f el) = (elPoints el).map f := by
  cases el <;> rfl

theorem pathPoints_applyAffine (f : ℚ × ℚ → ℚ × ℚ) (b : List (PathEl ℚ)) :
    pathPoints (applyAffine f b) = (pathPoints b).map f := by
  induction b with
  | nil => rfl
  | cons el rest ih =>
    simp only [pathPoints, applyAffine, List.map_cons, List.flatMap_cons] at *
    rw [elPoints_mapEl, ih, List.map_append]

theorem foldl_min_fst_shift (qs : List (ℚ × ℚ)) (v : ℚ × ℚ) :
    ∀ a : ℚ, (qs.map (translateBy v)).foldl (fun x r => min x r.1) (a + v.1) =
      qs.foldl (fun x r => min x r.1) a + v.1 := by
  induction qs with
  | nil => intro a; rfl
  | cons q rest ih =>
    intro a
    simp only [List.map_cons, List.foldl_cons, translateBy]
    rw [min_add_add_right]
    exact ih (min a q.1)

theorem foldl_min_snd_shift (qs : List (ℚ × ℚ)) (v : ℚ × ℚ) :
    ∀ a : ℚ, (qs.map (translateBy v)).foldl (fun x r => min x r.2) (a + v.2) =
      qs.foldl (fun x r => min x r.2) a + v.2 := by
  induction qs with
  | nil => intro a; rfl
  | cons q rest ih =>
    intro a
    simp only [List.map_cons, List.foldl_cons, translateBy]
    rw [min_add_add_right]
    exact ih (min a q.2)

/-- Claim C5: after the vertical flip and the translation by the negated
bounding-box origin, the minimum corner of the resulting path's
axis-aligned bounding box is `(0, 0)` — exactly, in the rational model. -/
theorem code_transform_bbox_origin_zero (b : List (PathEl ℚ)) :
    (boundingBox (transformForCode b)).x0 = 0 ∧
    (boundingBox (transformForCode b)).y0 = 0 := by
  have hb : transformForCode b =
      applyAffine (translateBy (-(boundingBox (applyAffine flipY b)).x0,
        -(boundingBox (applyAffine flipY b)).y0)) (applyAffine flipY b) := rfl
  rw [hb]
  unfold boundingBox
  rw [pathPoints_applyAffine]
  rcases hcase : pathPoints (applyAffine flipY b) with _ | ⟨q, qs⟩
  · simp [rectOfPoints]
  · simp only [List.map_cons, rectOfPoints]
    refine ⟨?_, ?_⟩
    · exact (foldl_min_fst_shift qs
        (-(List.foldl (fun a r => min a r.1) q.1 qs),
          -(List.foldl (fun a r => min a r.2) q.2 qs)) q.1).trans (by ring)
    · exact (foldl_min_snd_shift qs
        (-(List.foldl (fun a r => min a r.1) q.1 qs),
          -(List.foldl (fun a r => min a r.2) q.2 qs)) q.2).trans (by ring)

/-- No point of the list has type `Move` (the spec's contour invariant
that a `Move` point may only be the first point). -/
def noMoveTail (pts : List ContourPoint) : Bool :=
  pts.all (fun p => !(p.typ == PointType.move))

/-- No `Line` point immediately follows an `OffCurve` point. -/
def noLineAfterOff : List ContourPoint → Bool
  | a :: b :: rest =>
    !(a.typ == PointType.offCurve && b.typ == PointType.line) &&
      noLineAfterOff (b :: rest)
  | _ => true

/-- No three consecutive `OffCurve` points: at most two off-curve points
accumulate before the next on-curve point. -/
def noTripleOff : List ContourPoint → Bool
  | a :: b :: c :: rest =>
    !(a.typ == PointType.offCurve && b.typ == PointType.offCurve &&
        c.typ == PointType.offCurve) &&
      noTripleOff (b :: c :: rest)
  | _ => true

/-- The spec's well-formedness precondition on a contour, checked on the
points after the first (the first point is never pushed into the
pending-control buffer): no `Line` immediately after an `OffCurve`, at
most two `OffCurve` points in a row, and no `Move` after the first
point. -/
def Contour.wellFormed (c : Contour) : Bool :=
  noMoveTail c.points.tail && noLineAfterOff c.points.tail &&
    noTripleOff c.points.tail

theorem noMoveTail_head (p : ContourPoint) (rest : List ContourPoint)
    (h : noMoveTail (p :: rest) = true) :
    p.typ ≠ .move ∧ noMoveTail rest = true := by
  simp [noMoveTail] at h ⊢
  exact h

theorem noLineAfterOff_tail (p : ContourPoint) (rest : List ContourPoint)
    (h : noLineAfterOff (p :: rest) = true) : noLineAfterOff rest = true := by
  cases rest with
  | nil => rfl
  | cons b bs =>
    rw [noLineAfterOff, Bool.and_eq_true] at h
    exact h.2

theorem noTripleOff_tail (p : ContourPoint) (rest : List ContourPoint)
    (h : noTripleOff (p :: rest) = true) : noTripleOff rest = true := by
  cases rest with
  | nil => rfl
  | cons b bs =>
    cases bs with
    | nil => rfl
    | cons c2 cs =>
      rw [noTripleOff, Bool.and_eq_true] at h
      exact h.2

theorem noLineAfterOff_pair (a b : ContourPoint) (rest : List ContourPoint)
    (h : noLineAfterOff (a :: b :: rest) = true) :
    ¬(a.typ = .offCurve ∧ b.typ = .line) := by
  rw [noLineAfterOff, Bool.and_eq_true] at h
  rintro ⟨h1, h2⟩
  have := h.1
  simp [h1, h2] at this

theorem noTripleOff_triple (a b c : ContourPoint) (rest : List ContourPoint)
    (h : noTripleOff (a :: b :: c :: rest) = true) :
    ¬(a.typ = .offCurve ∧ b.typ = .offCurve ∧ c.typ = .offCurve) := by
  rw [noTripleOff, Bool.and_eq_true] at h
  rintro ⟨h1, h2, h3⟩
  have := h.1
  simp [h1, h2, h3] at this

theorem walk_total (pts : List ContourPoint) :
    ∀ (els : List (PathEl Int)) (controls : List (Int × Int)),
      noMoveTail pts = true → noLineAfterOff pts = true →
      noTripleOff pts = true → controls.length ≤ 2 →
      (∀ b bs, pts = b :: bs → controls ≠ [] → b.typ ≠ .line) →
      (∀ b bs, pts = b :: bs → 2 ≤ controls.length → b.typ ≠ .offCurve) →
      (∀ b c2 cs, pts = b :: c2 :: cs → controls ≠ [] →
        ¬(b.typ = .offCurve ∧ c2.typ = .offCurve)) →
      ∃ els' controls', walk pts els controls = some (els', controls') ∧
        controls'.length ≤ 2 := by
  induction pts with
  | nil =>
    intro els controls _ _ _ h4 _ _ _
    exact ⟨els, controls, rfl, h4⟩
  | cons p rest ih =>
    intro els controls h1 h2 h3 h4 h5 h6 h7
    obtain ⟨hpm, h1'⟩ := noMoveTail_head p rest h1
    have h2' := noLineAfterOff_tail p rest h2
    have h3' := noTripleOff_tail p rest h3
    cases hp : p.typ
    case move => exact absurd hp hpm
    case line =>
      have hc : controls = [] := by
        by_contra hne
        exact (h5 p rest rfl hne) hp
      subst hc
      obtain ⟨els', controls', hw, hlen⟩ :=
        ih (els ++ [.lineTo p.pt]) [] h1' h2' h3' (by simp)
          (fun b bs hb hne => absurd rfl hne)
          (fun b bs hb hl => by simp at hl)
          (fun b c2 cs hb hne => absurd rfl hne)
      refine ⟨els', controls', ?_, hlen⟩
      simp only [walk, hp, List.isEmpty_nil, if_true, addCurve]
      exact hw
    case curve =>
      obtain ⟨el, hel⟩ := addCurve_isSome controls p.pt h4
      obtain ⟨els', controls', hw, hlen⟩ :=
        ih (els ++ [el]) [] h1' h2' h3' (by simp)
          (fun b bs hb hne => absurd rfl hne)
          (fun b bs hb hl => by simp at hl)
          (fun b c2 cs hb hne => absurd rfl hne)
      refine ⟨els', controls', ?_, hlen⟩
      simp only [walk, hp, hel]
      exact hw
    case qcurve =>
      obtain ⟨el, hel⟩ := addCurve_isSome controls p.pt h4
      obtain ⟨els', controls', hw, hlen⟩ :=
        ih (els ++ [el]) [] h1' h2' h3' (by simp)
          (fun b bs hb hne => absurd rfl hne)
          (fun b bs hb hl => by simp at hl)
          (fun b c2 cs hb hne => absurd rfl hne)
      refine ⟨els', controls', ?_, hlen⟩
      simp only [walk, hp, hel]
      exact hw
    case offCurve =>
      have hlen1 : controls.length ≤ 1 := by
        by_contra hgt
        push_neg at hgt
        exact (h6 p rest rfl (by omega)) hp
      have h4' : (controls ++ [p.pt]).length ≤ 2 := by
        simp
        omega
      have h5' : ∀ b bs, rest = b :: bs → controls ++ [p.pt] ≠ [] →
          b.typ ≠ .line := by
        intro b bs hb _ hbl
        exact noLineAfterOff_pair p b bs (hb ▸ h2) ⟨hp, hbl⟩
      have h6' : ∀ b bs, rest = b :: bs → 2 ≤ (controls ++ [p.pt]).length →
          b.typ ≠ .offCurve := by
        intro b bs hb hl hboff
        have hne : controls ≠ [] := by
          intro hnil
          subst hnil
          simp at hl
        exact (h7 p b bs (by rw [hb]) hne) ⟨hp, hboff⟩
      have h7' : ∀ b c2 cs, rest = b :: c2 :: cs → controls ++ [p.pt] ≠ [] →
          ¬(b.typ = .offCurve ∧ c2.typ = .offCurve) := by
        rintro b c2 cs hb _ ⟨hboff, hcoff⟩
        exact noTripleOff_triple p b c2 cs (hb ▸ h3) ⟨hp, hboff, hcoff⟩
      obtain ⟨els', controls', hw, hlen⟩ :=
        ih els (controls ++ [p.pt]) h1' h2' h3' h4' h5' h6' h7'
      refine ⟨els', controls', ?_, hlen⟩
      simp only [walk, hp]
      exact hw

/-- Claim C8: under the well-formedness precondition on contours — no
`Line` point immediately after an `OffCurve` point, at most two `OffCurve`
points before the next on-curve point, and the spec's contour invariant
that `Move` appears only first — the converter's failure branches are
unreachable: neither the panic arm for three pending controls nor the
`Line`-with-nonempty-buffer assertion fires and conversion is total. -/
theorem wellformed_conversion_total (c : Contour) (h : c.wellFormed = true) :
    (addContour c).isSome = true := by
  obtain ⟨pts⟩ := c
  rcases pts with _ | ⟨first, rest⟩
  · rfl
  · rw [Contour.wellFormed] at h
    simp only [List.tail_cons] at h
    rw [Bool.and_eq_true, Bool.and_eq_true] at h
    obtain ⟨⟨h1, h2⟩, h3⟩ := h
    obtain ⟨els, controls, hw, hlen⟩ :=
      walk_total rest [.moveTo first.pt] [] h1 h2 h3 (by simp)
        (fun b bs hb hne => absurd rfl hne)
        (fun b bs hb hl => by simp at hl)
        (fun b c2 cs hb hne => absurd rfl hne)
    obtain ⟨el, hel⟩ := addCurve_isSome controls first.pt hlen
    by_cases hm : first.typ = .move
    · simp [addContour, hm, hw]
    · simp [addContour, hm, hw, hel]

/-- Witness for C8 at a well-formed closed contour with two cubic
segments. -/
theorem wellformed_conversion_total_witness :
    Contour.wellFormed ⟨[⟨0, 0, .curve⟩, ⟨1, 0, .offCurve⟩, ⟨1, 1, .offCurve⟩,
      ⟨0, 1, .curve⟩]⟩ = true ∧
    (addContour ⟨[⟨0, 0, .curve⟩, ⟨1, 0, .offCurve⟩, ⟨1, 1, .offCurve⟩,
      ⟨0, 1, .curve⟩]⟩).isSome = true :=
  ⟨by decide,
    wellformed_conversion_total ⟨[⟨0, 0, .curve⟩, ⟨1, 0, .offCurve⟩,
      ⟨1, 1, .offCurve⟩, ⟨0, 1, .curve⟩]⟩ (by decide)⟩
